import Mathlib

/-!
Verification of the ANFIS core (`scripts/anfis_implementations/anfis_jfpower.py`)
against its natural-language specification.

Shallow embedding conventions:
* torch tensors are nested `List ℚ` values (rationals stand for the float
  values; every claim checked here is about index wiring, shapes and exact
  zero/epsilon behaviour, not float rounding);
* a membership function (`GaussMembFunc` etc.) is an abstract scalar map
  `ℚ → ℚ` — no claim constrains the particular MF curves;
* the LAPACK least-squares routine behind `torch.gels` is abstracted as a
  `solver` parameter (it is external library code); the slicing
  `coeff_2d[0:weighted_x_2d.shape[1]]` that follows it is modelled;
* `torch.nn.functional.normalize(v, p, dim, eps=1e-12)` is, per the torch
  documentation and source, `v / max(norm_p(v), eps)` — the epsilon clamp is
  part of the embedding because two claims turn on it;
* fallible operations (`assert` in Python, a property with no setter) are
  embedded as `Except String`.
-/

namespace AnfisJF

/-- The epsilon 1e-12 shared by `F.normalize` (its default `eps`) and the
zero-entry replacement in `ConsequentLayer.fit_coeff`. -/
def tinyEps : ℚ := 1 / 10 ^ 12

/-! ## FuzzifyVariable (anfis_jfpower.py lines 24-74) -/

/-- Source `FuzzifyVariable`: an ordered list of membership functions plus the
`padding` count set later by `pad_to`.  `padding` is an integer because the
source computes `new_size - len(self.mfdefs)` with no guard, so it can go
negative. -/
structure FuzzifyVariable where
  mfdefs : List (ℚ → ℚ)
  padding : ℤ

/-- Constructor `FuzzifyVariable.__init__` (padding starts at 0). -/
def mkFuzzifyVariable (mfs : List (ℚ → ℚ)) : FuzzifyVariable :=
  ⟨mfs, 0⟩

/-- Property `num_mfs`: the actual number of MFs, ignoring any padding. -/
def FuzzifyVariable.num_mfs (v : FuzzifyVariable) : ℕ :=
  v.mfdefs.length

/-- Method `pad_to(new_size)`: sets `padding = new_size - len(mfdefs)` (the source
subtracts with no guard, so the result may be negative). -/
def FuzzifyVariable.pad_to (v : FuzzifyVariable) (newSize : ℕ) : FuzzifyVariable :=
  { v with padding := (newSize : ℤ) - v.mfdefs.length }

/-- One row of `FuzzifyVariable.forward`: the membership value of each MF at
`xi`, then — only when `padding > 0` — `padding` appended zero columns. -/
def FuzzifyVariable.fuzzRow (v : FuzzifyVariable) (xi : ℚ) : List ℚ :=
  if 0 < v.padding then
    (v.mfdefs.map fun mf => mf xi) ++ List.replicate v.padding.toNat 0
  else
    v.mfdefs.map fun mf => mf xi

/-- Method `FuzzifyVariable.forward` on a batch of scalars (the column
`x[:, i:i+1]`): shape `[n_cases, num_mfs + padding]`. -/
def FuzzifyVariable.forward (v : FuzzifyVariable) (x : List ℚ) : List (List ℚ) :=
  x.map v.fuzzRow

/-! ## FuzzifyLayer (lines 77-129) -/

/-- Computes `max([var.num_mfs for var in varmfs])`; the source raises on an empty
list, the model returns 0 there (all claims use nonempty variable lists). -/
def maxMfsOf (vars : List FuzzifyVariable) : ℕ :=
  (vars.map FuzzifyVariable.num_mfs).foldr max 0

/-- Source `FuzzifyLayer`: the ordered list of owned (padded) variables.  Variable
names only label reporting output and are omitted. -/
structure FuzzifyLayer where
  varmfs : List FuzzifyVariable

/-- Constructor `FuzzifyLayer.__init__`: computes `maxmfs` over all variables and pads
every variable to it. -/
def FuzzifyLayer.init (vars : List FuzzifyVariable) : FuzzifyLayer :=
  ⟨vars.map fun v => v.pad_to (maxMfsOf vars)⟩

/-- Property `num_in`. -/
def FuzzifyLayer.num_in (L : FuzzifyLayer) : ℕ :=
  L.varmfs.length

/-- Property `max_mfs` (max over the owned true MF counts). -/
def FuzzifyLayer.max_mfs (L : FuzzifyLayer) : ℕ :=
  maxMfsOf L.varmfs

/-- Method `FuzzifyLayer.forward`: fuzzify each variable on its column and stack
along dim 1, giving shape `[n_cases, n_in, n_mfs]`; the source asserts
`x.shape[1] == num_in`, which theorems carry as a hypothesis. -/
def FuzzifyLayer.forward (L : FuzzifyLayer) (x : List (List ℚ)) :
    List (List (List ℚ)) :=
  x.map fun row => (L.varmfs.zip row).map fun p => p.1.fuzzRow p.2

/-! ## AntecedentLayer (lines 132-174) -/

/-- Models `itertools.product(*[range(n) for n in mf_count])` as a list of index
tuples: the Cartesian product in lexicographic order, last component varying
fastest. -/
def ruleTable : List ℕ → List (List ℕ)
  | [] => [[]]
  | n :: ns => (List.range n).flatMap fun i => (ruleTable ns).map fun r => i :: r

/-- Source `AntecedentLayer`: holds the `mf_indices` tensor, shape
`[n_rules, n_in]`. -/
structure AntecedentLayer where
  mf_indices : List (List ℕ)

/-- Constructor `AntecedentLayer.__init__`: counts the actual MFs of each variable and
builds the rule index table. -/
def AntecedentLayer.init (varlist : List FuzzifyVariable) : AntecedentLayer :=
  ⟨ruleTable (varlist.map FuzzifyVariable.num_mfs)⟩

/-- Method `num_rules()`: returns `len(mf_indices)`. -/
def AntecedentLayer.num_rules (A : AntecedentLayer) : ℕ :=
  A.mf_indices.length

/-- Models `t.transpose(0, 1)` of a 2-D tensor, with the column count read
off the first row (the stand-in for the shape torch carries). -/
def transposeT (m : List (List ℚ)) : List (List ℚ) :=
  (List.range (m.headD []).length).map fun j => m.map fun row => row.getD j 0

/-- Models `torch.gather(input, 1, index)` for one batch element:
`out[r][i] = input[index[r][i]][i]`. -/
def gatherDim1 (input : List (List ℚ)) (index : List (List ℕ)) :
    List (List ℚ) :=
  index.map fun row => row.enum.map fun p => (input.getD p.2 []).getD p.1 0

/-- Method `AntecedentLayer.forward`: per sample, transpose the fuzzified block to
`[n_mfs, n_in]`, gather the per-rule membership degrees with `mf_indices`
(expanded over the batch), and take the product along the variable axis.
Output shape `[n_cases, n_rules]`. -/
def AntecedentLayer.forward (A : AntecedentLayer) (x : List (List (List ℚ))) :
    List (List ℚ) :=
  x.map fun sample =>
    (gatherDim1 (transposeT sample) A.mf_indices).map List.prod

/-! ## Normalization (line 375) -/

/-- Models `F.normalize(w, p=1, dim=1)`: each entry divided by
`max(sum of absolute values of its row, 1e-12)` — torch clamps the
denominator at its default `eps` 1e-12. -/
def l1Normalize (w : List (List ℚ)) : List (List ℚ) :=
  w.map fun row => row.map fun v => v / max (row.map fun a => |a|).sum tinyEps

/-! ## ConsequentLayer and PlainConsequentLayer (lines 177-274) -/

/-- An all-zero 3-D tensor `torch.zeros([d_rule, d_out, d_in+1])`
(arguments given as the final dims). -/
def zeros3 (R O J : ℕ) : List (List (List ℚ)) :=
  List.replicate R (List.replicate O (List.replicate J 0))

/-- The consequent layer.  The source has two classes,
`ConsequentLayer` (hybrid least squares) and its subclass
`PlainConsequentLayer` (backprop); the model holds the stored tensor
`_coeff` plus the flag recording which class the object belongs to, and
every method dispatches on that flag exactly as Python method resolution
does. -/
structure ConsequentLayer where
  hybrid : Bool
  coeffData : List (List (List ℚ))

/-- Constructor `ConsequentLayer.__init__(d_in, d_rule, d_out)` (and the
Plain variant, which stores the same zero tensor): coeff shape
`[d_rule, d_out, d_in+1]`, all zeros. -/
def ConsequentLayer.init (hybrid : Bool) (d_in d_rule d_out : ℕ) :
    ConsequentLayer :=
  ⟨hybrid, zeros3 d_rule d_out (d_in + 1)⟩

/-- The `coeff` property getter: both classes return the stored tensor
(the Plain subclass registers it as the parameter `coefficients`). -/
def ConsequentLayer.coeff (L : ConsequentLayer) : List (List (List ℚ)) :=
  L.coeffData

/-- The dims of a 3-D tensor (a torch `Size` triple; all tensors the source
builds are rectangular, so the head lengths are the dims). -/
def dims3 (t : List (List (List ℚ))) : ℕ × ℕ × ℕ :=
  (t.length, (t.headD []).length, ((t.headD []).headD []).length)

/-- Assigning to the `coeff` property.  On the hybrid class the setter
asserts shape equality and stores the new tensor.  The Plain subclass
redefines `coeff` with a getter only, so Python raises `AttributeError`
on any assignment, whatever the shape. -/
def ConsequentLayer.setCoeff (L : ConsequentLayer)
    (new : List (List (List ℚ))) : Except String ConsequentLayer :=
  if L.hybrid then
    if dims3 new = dims3 L.coeffData then
      .ok { L with coeffData := new }
    else
      .error "Coeff shape mismatch"
  else
    .error "AttributeError: property coeff of PlainConsequentLayer has no setter"

/-- Dot product of two rows (`zipWith` truncates at the shorter list; all
uses are on equal-length rows). -/
def dotQ (u v : List ℚ) : ℚ :=
  (List.zipWith (· * ·) u v).sum

/-- Models `torch.matmul` of two 2-D tensors. -/
def matmul2 (a b : List (List ℚ)) : List (List ℚ) :=
  a.map fun row => (transposeT b).map fun col => dotQ row col

/-- Models `torch.cat` with a ones column: append the
constant-term 1 to each input row. -/
def addOnes (x : List (List ℚ)) : List (List ℚ) :=
  x.map fun row => row ++ [1]

/-- Models `t.transpose(0, 2)` of a 3-D tensor (dims read off the nested heads,
standing in for the shape torch carries). -/
def transpose02 (t : List (List (List ℚ))) : List (List (List ℚ)) :=
  (List.range ((t.headD []).headD []).length).map fun n =>
    (List.range (t.headD []).length).map fun o =>
      t.map fun slab => (slab.getD o []).getD n 0

/-- Method `ConsequentLayer.forward` (both classes):
`matmul(coeff, x_plus.t()).transpose(0, 2)`, giving
`y[n][o][r] = coeff[r][o] . x_plus[n]`, shape `[n_cases, n_out, n_rules]`. -/
def ConsequentLayer.forward (L : ConsequentLayer) (x : List (List ℚ)) :
    List (List (List ℚ)) :=
  transpose02 (L.coeff.map fun slab => matmul2 slab (transposeT (addOnes x)))

/-- Models `coeff_2d.view(R, J, -1)`: reshape the `[R*J, O]` matrix of solved rows
into `R` blocks of `J` rows (row-major, exactly torch `view` semantics;
`R` and `J` are the dims the source passes, `weights.shape[1]` and
`x.shape[1]+1`). -/
def viewAs3 (R J : ℕ) (rows : List (List ℚ)) : List (List (List ℚ)) :=
  (List.range R).map fun r => (List.range J).map fun j => rows.getD (r * J + j) []

/-- Method `ConsequentLayer.fit_coeff(x, weights, y_actual)`.  Hybrid class: build
`weighted_x` via the einsum bp,bq to bpq, replace every exact
zero with 1e-12, flatten to 2-D, hand the matrix to the least-squares
routine (`torch.gels`, abstracted as `solver`), slice the first
`weighted_x_2d.shape[1]` rows of the solution, `view` into
`[R, num_in+1, O]`, transpose the last two dims, and store through the
`coeff` setter.  The Plain subclass overrides the method with
`assert False`, embedded as an error. -/
def ConsequentLayer.fit_coeff
    (solver : List (List ℚ) → List (List ℚ) → List (List ℚ))
    (L : ConsequentLayer) (x weights y_actual : List (List ℚ)) :
    Except String ConsequentLayer :=
  if L.hybrid then
    let x_plus := addOnes x
    let weighted_x :=
      (weights.zip x_plus).map fun p => p.1.map fun wr => p.2.map fun xq => wr * xq
    let wx_replaced :=
      weighted_x.map fun m => m.map fun row => row.map fun v =>
        if v = 0 then tinyEps else v
    let weighted_x_2d := wx_replaced.map List.flatten
    let coeff_2d :=
      (solver weighted_x_2d y_actual).take (weighted_x_2d.headD []).length
    L.setCoeff
      ((viewAs3 (weights.headD []).length ((x.headD []).length + 1)
        coeff_2d).map transposeT)
  else
    .error "Not hybrid learning: using BP to learn coefficients"

/-! ## Weighted sum (lines 377-379) and AnfisNet (lines 297-380) -/

/-- Models `torch.bmm(rule_tsk, weights.unsqueeze(2)).squeeze(2)`: for each sample
and output, the rule outputs weighted by the normalized firing strengths
and summed over rules. -/
def weightedSum (weights : List (List ℚ)) (tsk : List (List (List ℚ))) :
    List (List ℚ) :=
  (tsk.zip weights).map fun p =>
    (matmul2 p.1 (p.2.map fun v => [v])).map fun row => row.getD 0 0

/-- Source `AnfisNet`: the five-layer container.  `invardefs` keeps only the
per-variable MF list (names label reporting output only); `num_rules` is
`np.prod` of the true MF counts, computed before any padding. -/
structure AnfisNet where
  description : String
  outvarnames : List String
  hybrid : Bool
  num_in : ℕ
  num_rules : ℕ
  fuzzify : FuzzifyLayer
  rules : AntecedentLayer
  consequent : ConsequentLayer

/-- Constructor `AnfisNet.__init__`: builds the `FuzzifyVariable`s, sizes the consequent
layer from `num_in`, `num_rules`, `num_out`, constructs the `FuzzifyLayer`
(which pads the variables in place) and then the `AntecedentLayer` from the
same (padded) variable objects. -/
def AnfisNet.init (description : String) (invardefs : List (List (ℚ → ℚ)))
    (outvarnames : List String) (hybrid : Bool) : AnfisNet :=
  let fl := FuzzifyLayer.init (invardefs.map mkFuzzifyVariable)
  { description := description
    outvarnames := outvarnames
    hybrid := hybrid
    num_in := invardefs.length
    num_rules := (invardefs.map List.length).prod
    fuzzify := fl
    rules := AntecedentLayer.init fl.varmfs
    consequent :=
      ConsequentLayer.init hybrid invardefs.length
        ((invardefs.map List.length).prod) outvarnames.length }

/-- Property `num_out`. -/
def AnfisNet.num_out (net : AnfisNet) : ℕ :=
  net.outvarnames.length

/-- The `coeff` property getter, delegated to the consequent layer. -/
def AnfisNet.coeff (net : AnfisNet) : List (List (List ℚ)) :=
  net.consequent.coeff

/-- The `coeff` property setter, delegated to the consequent layer (whose
class decides whether assignment is even possible). -/
def AnfisNet.setCoeff (net : AnfisNet) (new : List (List (List ℚ))) :
    Except String AnfisNet :=
  (net.consequent.setCoeff new).map fun L => { net with consequent := L }

/-- The intermediate tensors `AnfisNet.forward` stores on the instance. -/
structure ForwardResult where
  fuzzified : List (List (List ℚ))
  raw_weights : List (List ℚ)
  weights : List (List ℚ)
  rule_tsk : List (List (List ℚ))
  y_pred : List (List ℚ)

/-- Method `AnfisNet.forward`: fuzzify, fire the rules, L1-normalize, run the
consequent layer on the raw input, and take the weighted sum. -/
def AnfisNet.forward (net : AnfisNet) (x : List (List ℚ)) : ForwardResult :=
  let fuzzified := net.fuzzify.forward x
  let raw_weights := net.rules.forward fuzzified
  let weights := l1Normalize raw_weights
  let rule_tsk := net.consequent.forward x
  ⟨fuzzified, raw_weights, weights, rule_tsk, weightedSum weights rule_tsk⟩

/-- Method `AnfisNet.fit_coeff(x, y_actual)`: in hybrid mode, a forward pass
(for the normalized weights) followed by the consequent closed-form
solve on the raw `x`; a no-op in plain mode. -/
def AnfisNet.fit_coeff
    (solver : List (List ℚ) → List (List ℚ) → List (List ℚ))
    (net : AnfisNet) (x y_actual : List (List ℚ)) : Except String AnfisNet :=
  if net.hybrid then
    (net.consequent.fit_coeff solver x (net.forward x).weights y_actual).map
      fun L => { net with consequent := L }
  else
    .ok net

/-! ## Rule-table lemmas (claim C1) -/

/-- The rule table has exactly `prod(mf counts)` rows. -/
theorem ruleTable_length (ms : List ℕ) : (ruleTable ms).length = ms.prod := by
  induction ms with
  | nil => rfl
  | cons n ns ih =>
    simp only [ruleTable, List.length_flatMap, Function.comp_def, List.length_map,
      ih, List.prod_cons]
    rw [List.map_const', List.sum_replicate, List.length_range, smul_eq_mul]

/-- A tuple is a row of the rule table exactly when it is componentwise
strictly below the MF counts (in particular padding indices never occur). -/
theorem mem_ruleTable (ms : List ℕ) (r : List ℕ) :
    r ∈ ruleTable ms ↔ List.Forall₂ (· < ·) r ms := by
  induction ms generalizing r with
  | nil =>
    simp only [ruleTable, List.mem_singleton, List.forall₂_nil_right_iff]
  | cons n ns ih =>
    simp only [ruleTable, List.mem_flatMap, List.mem_range, List.mem_map,
      List.forall₂_cons_right_iff]
    constructor
    · rintro ⟨i, hi, r', hr', rfl⟩
      exact ⟨i, r', hi, (ih r').1 hr', rfl⟩
    · rintro ⟨i, r', hi, hr', rfl⟩
      exact ⟨i, hi, r', (ih r').2 hr', rfl⟩

/-- The rows of the rule table are strictly increasing in the lexicographic
order (last variable varying fastest). -/
theorem ruleTable_pairwise (ms : List ℕ) :
    (ruleTable ms).Pairwise (List.Lex (· < ·)) := by
  induction ms with
  | nil => simp [ruleTable]
  | cons n ns ih =>
    rw [ruleTable, List.pairwise_flatMap]
    constructor
    · intro i _
      rw [List.pairwise_map]
      exact ih.imp fun h => List.Lex.cons h
    · refine (List.pairwise_lt_range n).imp ?_
      intro i j hij x hx y hy
      simp only [List.mem_map] at hx hy
      obtain ⟨rx, _, rfl⟩ := hx
      obtain ⟨ry, _, rfl⟩ := hy
      exact List.Lex.rel hij

/-- Method `pad_to` leaves `num_mfs` (the true MF count) unchanged. -/
theorem num_mfs_pad_to (v : FuzzifyVariable) (k : ℕ) :
    (v.pad_to k).num_mfs = v.num_mfs := rfl

/-- The antecedent layer of a freshly built `AnfisNet` holds exactly the
rule table of the true (pre-padding) MF counts. -/
theorem anfis_mf_indices (d : String) (invardefs : List (List (ℚ → ℚ)))
    (outv : List String) (hyb : Bool) :
    (AnfisNet.init d invardefs outv hyb).rules.mf_indices
      = ruleTable (invardefs.map List.length) := by
  simp [AnfisNet.init, AntecedentLayer.init, FuzzifyLayer.init, List.map_map,
    Function.comp_def, FuzzifyVariable.num_mfs, FuzzifyVariable.pad_to,
    mkFuzzifyVariable]

/-- Claim C1: for every `AnfisNet` (and its `AntecedentLayer`) built from
input variables, the rule index table is the Cartesian product of the
per-variable true MF index ranges in lexicographic order with the last
variable varying fastest (`mem_ruleTable` bounds every component by the
true MF count, so padding indices never appear), `num_rules` equals the
product of the true MF counts, and MF counts `[2,3]` yield exactly the six
rules `(0,0),(0,1),(0,2),(1,0),(1,1),(1,2)` in that order. -/
theorem anfis_rule_table_spec (d : String) (invardefs : List (List (ℚ → ℚ)))
    (outv : List String) (hyb : Bool) :
    (AnfisNet.init d invardefs outv hyb).rules.mf_indices
        = ruleTable (invardefs.map List.length) ∧
      (AnfisNet.init d invardefs outv hyb).num_rules
        = (invardefs.map List.length).prod ∧
      (AnfisNet.init d invardefs outv hyb).rules.num_rules
        = (invardefs.map List.length).prod ∧
      (∀ r, r ∈ (AnfisNet.init d invardefs outv hyb).rules.mf_indices ↔
        List.Forall₂ (· < ·) r (invardefs.map List.length)) ∧
      (AnfisNet.init d invardefs outv hyb).rules.mf_indices.Pairwise
        (List.Lex (· < ·)) ∧
      ruleTable [2, 3] = [[0,0], [0,1], [0,2], [1,0], [1,1], [1,2]] := by
  refine ⟨anfis_mf_indices d invardefs outv hyb, rfl, ?_, ?_, ?_, by decide⟩
  · rw [AntecedentLayer.num_rules, anfis_mf_indices, ruleTable_length]
  · intro r
    rw [anfis_mf_indices]
    exact mem_ruleTable _ r
  · rw [anfis_mf_indices]
    exact ruleTable_pairwise _

/-! ## Antecedent forward lemmas (claim C3) -/

/-- Reading entry `(j, i)` of a transposed 2-D tensor reads entry `(i, j)`
of the original, for any column `j` the transpose has. -/
theorem transposeT_getD (m : List (List ℚ)) (j i : ℕ)
    (hj : j < (m.headD []).length) :
    ((transposeT m).getD j []).getD i 0 = (m.getD i []).getD j 0 := by
  unfold transposeT
  rw [List.getD_eq_getElem (n := j) _ _ (by simpa using hj), List.getElem_map,
    List.getElem_range]
  rcases Nat.lt_or_ge i m.length with h | h
  · rw [List.getD_eq_getElem (n := i) _ _ (by simpa using h),
      List.getD_eq_getElem (n := i) _ _ h, List.getElem_map]
  · rw [List.getD_eq_default _ _ (by simpa using h), List.getD_eq_default _ _ h]
    simp

/-- Row `r` of a gather. -/
theorem gatherDim1_getD (input : List (List ℚ)) (index : List (List ℕ))
    (r : ℕ) (hr : r < index.length) :
    (gatherDim1 input index).getD r []
      = (index.getD r []).enum.map fun p => (input.getD p.2 []).getD p.1 0 := by
  unfold gatherDim1
  rw [List.getD_eq_getElem (n := r) _ _ (by simpa using hr), List.getElem_map,
    List.getD_eq_getElem _ _ hr]

/-- Claim C3: on a `[N, num_in, maxmfs]` input, the antecedent forward pass has shape `[N, num_rules]` and its `[n, r]` entry is the
product, over the variables `i`, of the membership degree found at index
`rule[r][i]` in the row of variable `i` in the sample (fuzzy AND as product
t-norm). -/
theorem antecedent_forward_spec (varlist : List FuzzifyVariable) (M : ℕ)
    (x : List (List (List ℚ)))
    (hM : ∀ v ∈ varlist, v.num_mfs ≤ M)
    (hx : ∀ s ∈ x, s.length = varlist.length ∧ ∀ row ∈ s, row.length = M) :
    ((AntecedentLayer.init varlist).forward x).length = x.length ∧
      (∀ row ∈ (AntecedentLayer.init varlist).forward x,
        row.length = (AntecedentLayer.init varlist).num_rules) ∧
      ∀ n r, n < x.length →
        r < (ruleTable (varlist.map FuzzifyVariable.num_mfs)).length →
        (((AntecedentLayer.init varlist).forward x).getD n []).getD r 0 =
          ((((ruleTable (varlist.map FuzzifyVariable.num_mfs)).getD r []).zip
            (x.getD n [])).map fun p => p.2.getD p.1 0).prod := by
  refine ⟨by simp [AntecedentLayer.forward], ?_, ?_⟩
  · intro row hrow
    simp only [AntecedentLayer.forward, List.mem_map] at hrow
    obtain ⟨s, _, rfl⟩ := hrow
    simp [gatherDim1, AntecedentLayer.num_rules, AntecedentLayer.init]
  · intro n r hn hr
    have hs : x.getD n [] ∈ x := by
      rw [List.getD_eq_getElem _ _ hn]; exact x.getElem_mem hn
    obtain ⟨hslen, hsrows⟩ := hx _ hs
    have hrr : (ruleTable (varlist.map FuzzifyVariable.num_mfs)).getD r []
        ∈ ruleTable (varlist.map FuzzifyVariable.num_mfs) := by
      rw [List.getD_eq_getElem _ _ hr]
      exact List.getElem_mem hr
    have hfa : List.Forall₂ (· < ·)
        ((ruleTable (varlist.map FuzzifyVariable.num_mfs)).getD r [])
        (varlist.map FuzzifyVariable.num_mfs) :=
      (mem_ruleTable _ _).1 hrr
    have hrrlen : ((ruleTable (varlist.map FuzzifyVariable.num_mfs)).getD
        r []).length = (x.getD n []).length := by
      rw [hfa.length_eq, List.length_map, hslen]
    -- row `n` of the forward pass
    have hrow : ((AntecedentLayer.init varlist).forward x).getD n []
        = (gatherDim1 (transposeT (x.getD n []))
            (ruleTable (varlist.map FuzzifyVariable.num_mfs))).map List.prod := by
      simp only [AntecedentLayer.forward, AntecedentLayer.init]
      rw [List.getD_eq_getElem _ _ (by simpa using hn), List.getElem_map,
        List.getD_eq_getElem x _ hn]
    have hglen : r < (gatherDim1 (transposeT (x.getD n []))
        (ruleTable (varlist.map FuzzifyVariable.num_mfs))).length := by
      simpa [gatherDim1] using hr
    rw [hrow, List.getD_eq_getElem _ _ (by simpa using hglen),
      List.getElem_map, ← List.getD_eq_getElem _ _ hglen,
      gatherDim1_getD _ _ r (by simpa using hr)]
    congr 1
    -- the gathered row equals the per-variable lookup row
    apply List.ext_getElem
    · simp only [List.length_map, List.enum_length, List.length_zip]
      omega
    · intro k hk1 hk2
      simp only [List.length_map, List.enum_length] at hk1
      have hks : k < (x.getD n []).length := hrrlen ▸ hk1
      have hbound : ((ruleTable (varlist.map FuzzifyVariable.num_mfs)).getD
          r [])[k] < M := by
        have hgot := (List.forall₂_iff_get.1 hfa).2 k hk1
          (by rw [← hfa.length_eq]; exact hk1)
        refine lt_of_lt_of_le hgot ?_
        rw [List.get_eq_getElem, List.getElem_map]
        exact hM _ (List.getElem_mem _)
      have hhead : ((x.getD n []).headD []).length = M := by
        have hne : x.getD n [] ≠ [] := by
          intro h0
          rw [h0] at hks; simp at hks
        obtain ⟨a, t, hat⟩ := List.exists_cons_of_ne_nil hne
        rw [hat]
        exact hsrows a (by rw [hat]; exact List.mem_cons_self a t)
      rw [List.getElem_map, List.getElem_map, List.getElem_enum,
        List.getElem_zip]
      simp only
      rw [transposeT_getD (x.getD n []) _ k (by rw [hhead]; exact hbound),
        List.getD_eq_getElem (x.getD n []) _ hks]

/-- Concrete two-variable list (MF counts 2 and 1) for the antecedent
witness; the MF curves themselves are irrelevant to the rule layer. -/
def anteVl : List FuzzifyVariable :=
  [⟨[fun _ => (0 : ℚ), fun _ => 0], 0⟩, ⟨[fun _ => (0 : ℚ)], 0⟩]

/-- One sample, two variables, two membership columns each. -/
def anteX : List (List (List ℚ)) := [[[2, 3], [5, 0]]]

theorem antecedent_forward_spec_witness :
    ((AntecedentLayer.init anteVl).forward anteX).length = anteX.length ∧
      (∀ row ∈ (AntecedentLayer.init anteVl).forward anteX,
        row.length = (AntecedentLayer.init anteVl).num_rules) ∧
      ∀ n r, n < anteX.length →
        r < (ruleTable (anteVl.map FuzzifyVariable.num_mfs)).length →
        (((AntecedentLayer.init anteVl).forward anteX).getD n []).getD r 0 =
          ((((ruleTable (anteVl.map FuzzifyVariable.num_mfs)).getD r []).zip
            (anteX.getD n [])).map fun p => p.2.getD p.1 0).prod :=
  antecedent_forward_spec anteVl 2 anteX
    (by
      intro v hv
      simp only [anteVl, List.mem_cons, List.mem_singleton,
        List.not_mem_nil, or_false] at hv
      rcases hv with rfl | rfl <;> decide)
    (by
      intro s hs
      simp only [anteX, List.mem_singleton, List.not_mem_nil, or_false] at hs
      subst hs
      refine ⟨rfl, ?_⟩
      intro row hrow
      simp only [List.mem_cons, List.mem_singleton, List.not_mem_nil,
        or_false] at hrow
      rcases hrow with rfl | rfl <;> rfl)

/-! ## Normalization lemmas (claims C4 and C7) -/

/-- Summing a normalized row of nonnegative entries whose sum clears the
epsilon clamp gives exactly 1. -/
theorem sum_normalized_row (row : List ℚ) (h : ∀ v ∈ row, 0 ≤ v)
    (hs : tinyEps ≤ row.sum) :
    (row.map fun v => v / max (row.map fun a => |a|).sum tinyEps).sum = 1 := by
  have habs : row.map (fun a => |a|) = row :=
    (List.map_congr_left fun a ha => abs_of_nonneg (h a ha)).trans
      (List.map_id row)
  rw [habs, max_eq_left hs]
  have hne : row.sum ≠ 0 :=
    ne_of_gt (lt_of_lt_of_le (by norm_num [tinyEps]) hs)
  have hmul : (row.map fun v => v / row.sum)
      = row.map fun v => id v * (row.sum)⁻¹ := by
    simp [div_eq_mul_inv]
  rw [hmul, List.sum_map_mul_right, List.map_id]
  exact mul_inv_cancel₀ hne

/-- Row `n` of the normalizer sums to 1 whenever the raw row is nonnegative
and its sum is at least the epsilon 1e-12. -/
theorem l1Normalize_row_sum (rows : List (List ℚ)) (n : ℕ)
    (hnonneg : ∀ v ∈ rows.getD n [], 0 ≤ v)
    (hs : tinyEps ≤ (rows.getD n []).sum) :
    ((l1Normalize rows).getD n []).sum = 1 := by
  rcases Nat.lt_or_ge n rows.length with h | h
  · unfold l1Normalize
    rw [List.getD_eq_getElem _ _ (by simpa using h), List.getElem_map,
      ← List.getD_eq_getElem _ _ h]
    exact sum_normalized_row _ hnonneg hs
  · rw [List.getD_eq_default _ _ h] at hs
    exact absurd hs (by norm_num [tinyEps])

/-- An all-zero raw row normalizes to an all-zero row (the denominator is
clamped at 1e-12, so the division is 0 / 1e-12 = 0, not 0 / 0). -/
theorem l1Normalize_zero_row (rows : List (List ℚ)) (n : ℕ)
    (hz : ∀ v ∈ rows.getD n [], v = 0) :
    ∀ w ∈ (l1Normalize rows).getD n [], w = 0 := by
  rcases Nat.lt_or_ge n rows.length with h | h
  · unfold l1Normalize
    rw [List.getD_eq_getElem _ _ (by simpa using h), List.getElem_map,
      ← List.getD_eq_getElem _ _ h]
    intro w hw
    simp only [List.mem_map] at hw
    obtain ⟨v, hv, rfl⟩ := hw
    rw [hz v hv, zero_div]
  · rw [List.getD_eq_default _ _ (by simpa [l1Normalize] using h)]
    intro w hw
    cases hw

/-- A dot product with an all-zero right factor is 0. -/
theorem dotQ_zero_right (u v : List ℚ) (h : ∀ b ∈ v, b = 0) : dotQ u v = 0 := by
  induction u generalizing v with
  | nil => simp [dotQ]
  | cons a u ih =>
    cases v with
    | nil => simp [dotQ]
    | cons b v =>
      have hb : b = 0 := h b (List.mem_cons_self b v)
      have hv : ∀ c ∈ v, c = 0 := fun c hc => h c (List.mem_cons_of_mem _ hc)
      simp only [dotQ, List.zipWith_cons_cons, List.sum_cons] at *
      rw [hb, mul_zero, ih v hv, add_zero]

/-- A dot product with an all-zero left factor is 0. -/
theorem dotQ_zero_left (u v : List ℚ) (h : ∀ a ∈ u, a = 0) : dotQ u v = 0 := by
  induction u generalizing v with
  | nil => simp [dotQ]
  | cons a u ih =>
    cases v with
    | nil => simp [dotQ]
    | cons b v =>
      have ha : a = 0 := h a (List.mem_cons_self a u)
      have hu : ∀ c ∈ u, c = 0 := fun c hc => h c (List.mem_cons_of_mem _ hc)
      simp only [dotQ, List.zipWith_cons_cons, List.sum_cons] at *
      rw [ha, zero_mul, ih v hu, add_zero]

/-- When the normalized weights of sample `n` are all zero, its weighted-sum
output row is all zero. -/
theorem weightedSum_zero_row (weights : List (List ℚ))
    (tsk : List (List (List ℚ))) (n : ℕ)
    (hz : ∀ w ∈ weights.getD n [], w = 0) :
    ∀ y ∈ (weightedSum weights tsk).getD n [], y = 0 := by
  rcases Nat.lt_or_ge n (tsk.zip weights).length with h | h
  · unfold weightedSum
    rw [List.getD_eq_getElem _ _ (by simpa using h), List.getElem_map,
      List.getElem_zip]
    have hnw : n < weights.length := by
      rw [List.length_zip] at h; omega
    intro y hy
    simp only [List.mem_map] at hy
    obtain ⟨rowm, hrowm, rfl⟩ := hy
    simp only [matmul2, List.mem_map] at hrowm
    obtain ⟨trow, _, rfl⟩ := hrowm
    rcases Nat.eq_zero_or_pos
        (transposeT (weights[n].map fun v => [v])).length with h0 | h0
    · rw [List.getD_eq_default _ _ (by simp [h0])]
    · rw [List.getD_eq_getElem _ _ (by simpa using h0), List.getElem_map]
      apply dotQ_zero_right
      intro b hb
      unfold transposeT at hb h0
      rw [List.getElem_map, List.getElem_range] at hb
      simp only [List.map_map, List.mem_map] at hb
      obtain ⟨w, hw, rfl⟩ := hb
      have : w = 0 := hz w (by rw [List.getD_eq_getElem _ _ hnw]; exact hw)
      simpa using this
  · rw [List.getD_eq_default _ _ (by simpa [weightedSum] using h)]
    intro y hy
    cases hy

/-- Claim C4 (amended): for every sample whose raw firing strengths are
nonnegative and sum to at least the normalizer epsilon 1e-12, the
normalization step in `AnfisNet.forward` makes the normalized weights sum
to exactly 1.  (The denominator is `max(L1 norm, 1e-12)` — torch
the `F.normalize` clamp — so rows whose nonzero strengths sum to less than
1e-12 are divided by 1e-12 instead and sum to less than 1; see the
counterexample.) -/
theorem anfis_weights_row_sums_to_one (net : AnfisNet) (x : List (List ℚ))
    (n : ℕ)
    (hnonneg : ∀ v ∈ (net.forward x).raw_weights.getD n [], 0 ≤ v)
    (hs : tinyEps ≤ ((net.forward x).raw_weights.getD n []).sum) :
    ((net.forward x).weights.getD n []).sum = 1 :=
  l1Normalize_row_sum _ n hnonneg hs

/-- A net with a single MF of constant value 1/2 (used by witnesses). -/
def netHalf : AnfisNet := AnfisNet.init "w" [[fun _ => (1 : ℚ) / 2]] ["y0"] true

theorem anfis_weights_row_sums_to_one_witness :
    ((netHalf.forward [[0]]).weights.getD 0 []).sum = 1 :=
  anfis_weights_row_sums_to_one netHalf [[0]] 0
    (by
      norm_num [netHalf, AnfisNet.init, AnfisNet.forward, FuzzifyLayer.init,
        FuzzifyLayer.forward, FuzzifyVariable.fuzzRow, FuzzifyVariable.pad_to,
        mkFuzzifyVariable, maxMfsOf, FuzzifyVariable.num_mfs,
        AntecedentLayer.init, AntecedentLayer.forward, gatherDim1, transposeT,
        ruleTable, List.enum, List.enumFrom, List.range_succ, List.range_zero,
        List.flatMap_cons, List.flatMap_nil, List.getD, List.getElem?_cons_zero,
        List.getElem?_cons_succ, List.getElem?_nil])
    (by
      norm_num [netHalf, AnfisNet.init, AnfisNet.forward, FuzzifyLayer.init,
        FuzzifyLayer.forward, FuzzifyVariable.fuzzRow, FuzzifyVariable.pad_to,
        mkFuzzifyVariable, maxMfsOf, FuzzifyVariable.num_mfs,
        AntecedentLayer.init, AntecedentLayer.forward, gatherDim1, transposeT,
        ruleTable, List.enum, List.enumFrom, List.range_succ, List.range_zero,
        List.flatMap_cons, List.flatMap_nil, List.getD, List.getElem?_cons_zero,
        List.getElem?_cons_succ, List.getElem?_nil, tinyEps])

/-- A net with a single MF of constant value 1e-13: its raw firing strength
is nonzero but below the normalizer epsilon clamp. -/
def netTiny : AnfisNet :=
  AnfisNet.init "c" [[fun _ => (1 : ℚ) / 10 ^ 13]] ["y0"] true

/-- Counterexample to claim C4 as stated: the raw firing strength of the sample
row `[1e-13]` has a nonzero entry, yet the normalized weights are `[1/10]`
(division by the clamped denominator 1e-12, not by the L1 norm), which does
not sum to 1. -/
theorem anfis_weights_sub_eps_counterexample :
    (netTiny.forward [[0]]).raw_weights = [[1 / 10 ^ 13]] ∧
      (1 : ℚ) / 10 ^ 13 ≠ 0 ∧
      (netTiny.forward [[0]]).weights = [[1 / 10]] ∧
      ((netTiny.forward [[0]]).weights.getD 0 []).sum ≠ 1 := by
  norm_num [netTiny, AnfisNet.init, AnfisNet.forward, FuzzifyLayer.init,
    FuzzifyLayer.forward, FuzzifyVariable.fuzzRow, FuzzifyVariable.pad_to,
    mkFuzzifyVariable, maxMfsOf, FuzzifyVariable.num_mfs, AntecedentLayer.init,
    AntecedentLayer.forward, gatherDim1, transposeT, ruleTable, l1Normalize,
    tinyEps, List.enum, List.enumFrom, List.range_succ, List.range_zero,
    List.flatMap_cons, List.flatMap_nil, List.getD, List.getElem?_cons_zero,
    List.getElem?_cons_succ, List.getElem?_nil, abs_of_nonneg, max_eq_right]

/-- Claim C7 (amended): for a sample whose raw firing strengths are all
exactly zero, the normalization in `AnfisNet.forward` divides by the
clamped denominator `max(0, 1e-12) = 1e-12` — not 0/0 — so the normalized weights of the sample are all exactly zero (not NaN) and its final prediction
row is all zero. -/
theorem anfis_allzero_firing_gives_zero (net : AnfisNet) (x : List (List ℚ))
    (n : ℕ)
    (hz : ∀ v ∈ (net.forward x).raw_weights.getD n [], v = 0) :
    (∀ w ∈ (net.forward x).weights.getD n [], w = 0) ∧
      ∀ y ∈ (net.forward x).y_pred.getD n [], y = 0 :=
  ⟨l1Normalize_zero_row _ n hz,
    weightedSum_zero_row _ _ n (l1Normalize_zero_row _ n hz)⟩

/-- A net with a single MF of constant value 0 (all-zero firing). -/
def netZero : AnfisNet := AnfisNet.init "z" [[fun _ => (0 : ℚ)]] ["y0"] true

/-- Counterexample to claim C7 as stated: on an all-zero raw firing row the
denominator used by `F.normalize` is `max(0, 1e-12) = 1e-12 ≠ 0` (no 0/0),
and the normalized weights and the prediction are exactly zero — the claim
says they are NaN. -/
theorem anfis_allzero_firing_counterexample :
    (netZero.forward [[0]]).raw_weights = [[0]] ∧
      max (((([(0 : ℚ)]).map fun a => |a|)).sum) tinyEps ≠ 0 ∧
      (netZero.forward [[0]]).weights = [[0]] ∧
      (netZero.forward [[0]]).y_pred = [[0]] := by
  norm_num [netZero, AnfisNet.init, AnfisNet.forward, FuzzifyLayer.init,
    FuzzifyLayer.forward, FuzzifyVariable.fuzzRow, FuzzifyVariable.pad_to,
    mkFuzzifyVariable, maxMfsOf, FuzzifyVariable.num_mfs, AntecedentLayer.init,
    AntecedentLayer.forward, gatherDim1, transposeT, ruleTable, l1Normalize,
    tinyEps, List.enum, List.enumFrom, List.range_succ, List.range_zero,
    List.flatMap_cons, List.flatMap_nil, List.getD, List.getElem?_cons_zero,
    List.getElem?_cons_succ, List.getElem?_nil, ConsequentLayer.forward,
    ConsequentLayer.init, ConsequentLayer.coeff, zeros3, matmul2, addOnes,
    transpose02, weightedSum, dotQ, abs_of_nonneg, max_eq_right]

theorem anfis_allzero_firing_gives_zero_witness :
    (∀ w ∈ (netZero.forward [[0]]).weights.getD 0 [], w = 0) ∧
      ∀ y ∈ (netZero.forward [[0]]).y_pred.getD 0 [], y = 0 :=
  anfis_allzero_firing_gives_zero netZero [[0]] 0
    (by
      norm_num [netZero, AnfisNet.init, AnfisNet.forward, FuzzifyLayer.init,
        FuzzifyLayer.forward, FuzzifyVariable.fuzzRow, FuzzifyVariable.pad_to,
        mkFuzzifyVariable, maxMfsOf, FuzzifyVariable.num_mfs,
        AntecedentLayer.init, AntecedentLayer.forward, gatherDim1, transposeT,
        ruleTable, List.enum, List.enumFrom, List.range_succ, List.range_zero,
        List.flatMap_cons, List.flatMap_nil, List.getD, List.getElem?_cons_zero,
        List.getElem?_cons_succ, List.getElem?_nil])

/-! ## Fresh-net lemmas (claim C10) -/

/-- Indexing anywhere into a zero vector gives 0 (in or out of range, the
default being zero too). -/
theorem getD_replicate_zero (L i : ℕ) :
    (List.replicate L (0 : ℚ)).getD i 0 = 0 := by
  rcases Nat.lt_or_ge i L with h | h
  · rw [List.getD_eq_getElem _ _ (by simpa using h), List.getElem_replicate]
  · rw [List.getD_eq_default _ _ (by simpa using h)]

/-- Indexing anywhere into a zero 2-D tensor gives 0. -/
theorem getD_zeros2 (k m i j : ℕ) :
    ((List.replicate k (List.replicate m (0 : ℚ))).getD i []).getD j 0 = 0 := by
  have hrow : (List.replicate k (List.replicate m (0 : ℚ))).getD i []
        = List.replicate m 0 ∨
      (List.replicate k (List.replicate m (0 : ℚ))).getD i [] = [] := by
    rcases Nat.lt_or_ge i k with h | h
    · exact Or.inl (by
        rw [List.getD_eq_getElem _ _ (by simpa using h), List.getElem_replicate])
    · exact Or.inr (by rw [List.getD_eq_default _ _ (by simpa using h)])
  rcases hrow with h | h <;> rw [h]
  · exact getD_replicate_zero m j
  · rfl

/-- A matrix product with an all-zero left operand is all zero. -/
theorem matmul2_zeros (m k : ℕ) (b : List (List ℚ)) :
    matmul2 (List.replicate m (List.replicate k (0 : ℚ))) b
      = List.replicate m (List.replicate (transposeT b).length 0) := by
  unfold matmul2
  rw [List.map_replicate]
  congr 1
  rw [List.map_congr_left
      (fun col _ => dotQ_zero_left _ col fun a ha => List.eq_of_mem_replicate ha),
    List.map_const']

/-- The row count of a transpose is the column count its first row shows. -/
theorem transposeT_length (m : List (List ℚ)) :
    (transposeT m).length = (m.headD []).length := by
  unfold transposeT
  rw [List.length_map, List.length_range]

/-- The number of columns the transpose of `addOnes x` exposes equals the
batch size. -/
theorem transposeT_addOnes_cols (x : List (List ℚ)) :
    ((transposeT (addOnes x)).headD []).length = x.length := by
  cases x with
  | nil => rfl
  | cons xr xt =>
    show ((transposeT ((xr ++ [1]) :: addOnes xt)).headD []).length
      = (xr :: xt).length
    unfold transposeT
    rw [show ((xr ++ [1]) :: addOnes xt).headD [] = xr ++ [1] from rfl]
    rw [List.length_append, List.length_singleton, List.range_succ_eq_map,
      List.map_cons]
    simp [addOnes]

/-- The head of a nonempty replicate. -/
theorem headD_replicate_succ {α : Type} (n : ℕ) (a d : α) :
    (List.replicate (n + 1) a).headD d = a := by
  rw [List.replicate_succ]
  rfl

/-- Transposing dims 0 and 2 of an all-zero `[R, O, L]` tensor gives the
all-zero `[L, O, R]` tensor (for nondegenerate `R`, `O`). -/
theorem transpose02_zeros (R O L : ℕ) (hR : 0 < R) (hO : 0 < O) :
    transpose02 (List.replicate R (List.replicate O (List.replicate L (0 : ℚ))))
      = List.replicate L (List.replicate O (List.replicate R 0)) := by
  obtain ⟨R', rfl⟩ : ∃ R', R = R' + 1 := ⟨R - 1, by omega⟩
  obtain ⟨O', rfl⟩ : ∃ O', O = O' + 1 := ⟨O - 1, by omega⟩
  unfold transpose02
  rw [headD_replicate_succ, headD_replicate_succ, List.length_replicate,
    List.length_replicate]
  apply List.ext_getElem
  · simp
  · intro p hp1 hp2
    rw [List.getElem_map, List.getElem_range, List.getElem_replicate]
    apply List.ext_getElem
    · simp
    · intro q hq1 hq2
      rw [List.getElem_map, List.getElem_range, List.getElem_replicate,
        List.map_replicate, getD_zeros2]

/-- A freshly initialized consequent layer (zero coefficients, at least one
rule and one output) produces the all-zero rule-output tensor of shape
`[N, d_out, d_rule]`. -/
theorem consequent_forward_zeros (hyb : Bool) (I R O : ℕ)
    (x : List (List ℚ)) (hR : 0 < R) (hO : 0 < O) :
    (ConsequentLayer.init hyb I R O).forward x
      = List.replicate x.length
          (List.replicate O (List.replicate R 0)) := by
  unfold ConsequentLayer.forward
  rw [show (ConsequentLayer.init hyb I R O).coeff
      = List.replicate R (List.replicate O (List.replicate (I + 1) (0 : ℚ)))
      from rfl]
  rw [List.map_replicate, matmul2_zeros, transpose02_zeros _ _ _ hR hO,
    transposeT_length, transposeT_addOnes_cols]

/-- The weighted sum of an all-zero rule-output tensor is the all-zero
prediction of shape `[N, d_out]`. -/
theorem weightedSum_zero_tsk (w : List (List ℚ)) (N O R : ℕ)
    (hw : w.length = N) :
    weightedSum w (List.replicate N (List.replicate O (List.replicate R 0)))
      = List.replicate N (List.replicate O 0) := by
  unfold weightedSum
  apply List.ext_getElem
  · simp [hw]
  · intro k hk1 hk2
    simp only [List.length_map, List.length_zip, List.length_replicate, hw,
      min_self] at hk1
    rw [List.getElem_map, List.getElem_zip, List.getElem_replicate,
      List.getElem_replicate]
    simp only
    rw [matmul2_zeros, List.map_replicate, getD_replicate_zero]

/-- Claim C10: a freshly constructed `AnfisNet` (hybrid or plain) has an
all-zero consequent coefficient tensor, and — for a valid input whose
samples each fire at least one rule (and a nondegenerate net: at least one
rule and one output variable) — `forward` returns the all-zero prediction
of shape `[N, num_out]`. -/
theorem fresh_anfis_zero_coeff_zero_output (d : String)
    (invardefs : List (List (ℚ → ℚ))) (outv : List String) (hyb : Bool)
    (x : List (List ℚ))
    (hR : 0 < (invardefs.map List.length).prod)
    (hO : 0 < outv.length)
    (hxrect : ∀ row ∈ x, row.length = invardefs.length)
    (hfire : ∀ row ∈ ((AnfisNet.init d invardefs outv hyb).forward x).raw_weights,
      ∃ v ∈ row, v ≠ 0) :
    (AnfisNet.init d invardefs outv hyb).coeff
        = zeros3 ((invardefs.map List.length).prod) outv.length
            (invardefs.length + 1) ∧
      ((AnfisNet.init d invardefs outv hyb).forward x).y_pred
        = List.replicate x.length (List.replicate outv.length 0) := by
  refine ⟨rfl, ?_⟩
  have hwlen : (l1Normalize ((AnfisNet.init d invardefs outv hyb).rules.forward
      ((AnfisNet.init d invardefs outv hyb).fuzzify.forward x))).length
      = x.length := by
    simp [l1Normalize, AntecedentLayer.forward, FuzzifyLayer.forward]
  show weightedSum _ ((AnfisNet.init d invardefs outv hyb).consequent.forward x)
    = _
  rw [show (AnfisNet.init d invardefs outv hyb).consequent
      = ConsequentLayer.init hyb invardefs.length
          ((invardefs.map List.length).prod) outv.length from rfl,
    consequent_forward_zeros hyb _ _ _ x hR hO,
    weightedSum_zero_tsk _ x.length _ _ hwlen]

theorem fresh_anfis_zero_coeff_zero_output_witness :
    (AnfisNet.init "w" [[fun _ => (1 : ℚ) / 2]] ["y0"] true).coeff
        = zeros3 1 1 2 ∧
      ((AnfisNet.init "w" [[fun _ => (1 : ℚ) / 2]] ["y0"] true).forward
          [[0]]).y_pred
        = List.replicate 1 (List.replicate 1 0) :=
  fresh_anfis_zero_coeff_zero_output "w" [[fun _ => (1 : ℚ) / 2]] ["y0"] true
    [[0]] (by norm_num) (by norm_num)
    (by intro row hrow; simp only [List.mem_singleton] at hrow; rw [hrow]; rfl)
    (by
      norm_num [AnfisNet.init, AnfisNet.forward, FuzzifyLayer.init,
        FuzzifyLayer.forward, FuzzifyVariable.fuzzRow, FuzzifyVariable.pad_to,
        mkFuzzifyVariable, maxMfsOf, FuzzifyVariable.num_mfs,
        AntecedentLayer.init, AntecedentLayer.forward, gatherDim1, transposeT,
        ruleTable, List.enum, List.enumFrom, List.range_succ, List.range_zero,
        List.flatMap_cons, List.flatMap_nil, List.getD, List.getElem?_cons_zero,
        List.getElem?_cons_succ, List.getElem?_nil])

/-! ## FuzzifyLayer padding (claim C5) -/

/-- Each true MF count of a member is bounded by the layer maximum. -/
theorem le_maxMfsOf (vars : List FuzzifyVariable) (v : FuzzifyVariable)
    (hv : v ∈ vars) : v.num_mfs ≤ maxMfsOf vars := by
  induction vars with
  | nil => cases hv
  | cons a l ih =>
    unfold maxMfsOf at *
    simp only [List.map_cons, List.foldr_cons]
    rcases List.mem_cons.mp hv with rfl | h
    · exact le_max_left _ _
    · exact le_trans (ih h) (le_max_right _ _)

/-- Padding does not change the `max_mfs` property of the layer. -/
theorem init_max_mfs (vars : List FuzzifyVariable) :
    (FuzzifyLayer.init vars).max_mfs = maxMfsOf vars := by
  show maxMfsOf (vars.map fun v => v.pad_to (maxMfsOf vars)) = maxMfsOf vars
  unfold maxMfsOf
  rw [List.map_map]
  rfl

/-- Claim C5: after `FuzzifyLayer` construction, the fuzzification rows of every owned variable have width `max_mfs` (the maximum MF count across all
variables), and every column at an index at or beyond the true
MF count of the variable — the padding columns — is exactly zero, for every input batch. -/
theorem fuzzify_layer_padding_spec (vars : List FuzzifyVariable) :
    (FuzzifyLayer.init vars).max_mfs = maxMfsOf vars ∧
      ∀ v ∈ (FuzzifyLayer.init vars).varmfs, ∀ x : List ℚ,
        ∀ row ∈ v.forward x,
          row.length = (FuzzifyLayer.init vars).max_mfs ∧
            ∀ j, v.num_mfs ≤ j → row.getD j 0 = 0 := by
  refine ⟨init_max_mfs vars, ?_⟩
  intro v hv x row hrow
  rw [init_max_mfs]
  simp only [FuzzifyLayer.init, List.mem_map] at hv
  obtain ⟨v0, hv0, rfl⟩ := hv
  simp only [FuzzifyVariable.forward, List.mem_map] at hrow
  obtain ⟨xi, _, rfl⟩ := hrow
  have hle : v0.num_mfs ≤ maxMfsOf vars := le_maxMfsOf vars v0 hv0
  have hle' : v0.mfdefs.length ≤ maxMfsOf vars := hle
  have hnum : v0.num_mfs = v0.mfdefs.length := rfl
  constructor
  · show (FuzzifyVariable.fuzzRow _ xi).length = _
    unfold FuzzifyVariable.fuzzRow FuzzifyVariable.pad_to
    simp only
    rcases eq_or_lt_of_le hle with heq | hlt
    · rw [if_neg (by rw [hnum] at heq; omega)]
      rw [List.length_map, ← hnum, heq]
    · rw [if_pos (by rw [hnum] at hlt; omega)]
      rw [List.length_append, List.length_map, List.length_replicate,
        Int.toNat_sub]
      omega
  · intro j hj
    have hj' : v0.mfdefs.length ≤ j := hj
    show (FuzzifyVariable.fuzzRow _ xi).getD j 0 = 0
    unfold FuzzifyVariable.fuzzRow FuzzifyVariable.pad_to
    simp only
    rcases eq_or_lt_of_le hle with heq | hlt
    · rw [if_neg (by rw [hnum] at heq; omega)]
      rw [List.getD_eq_default]
      rw [List.length_map]
      exact hj'
    · rw [if_pos (by rw [hnum] at hlt; omega)]
      rcases Nat.lt_or_ge j
          (v0.mfdefs.length + ((maxMfsOf vars : ℤ) - v0.mfdefs.length).toNat)
        with hcase | hcase
      · rw [List.getD_eq_getElem _ _ (by
            simpa [List.length_append, List.length_map,
              List.length_replicate] using hcase)]
        rw [List.getElem_append_right (by rw [List.length_map]; exact hj')]
        rw [List.getElem_replicate]
      · rw [List.getD_eq_default]
        simpa [List.length_append, List.length_map,
          List.length_replicate] using hcase

/-! ## Plain-mode fit rejection (claim C6) -/

/-- Claim C6: invoking the closed-form fit on a plain (backprop-trained)
consequent layer always fails with the invalid-operation error, for every
solver and every argument combination; nothing is stored (the result is an
error, never an `ok` layer). -/
theorem plain_fit_coeff_rejected
    (solver : List (List ℚ) → List (List ℚ) → List (List ℚ))
    (L : ConsequentLayer) (x w y : List (List ℚ))
    (hplain : L.hybrid = false) :
    L.fit_coeff solver x w y
      = Except.error "Not hybrid learning: using BP to learn coefficients" := by
  unfold ConsequentLayer.fit_coeff
  rw [hplain]
  rfl

theorem plain_fit_coeff_rejected_witness :
    (ConsequentLayer.init false 1 1 1).fit_coeff (fun _ _ => [])
        [[1]] [[1]] [[1]]
      = Except.error "Not hybrid learning: using BP to learn coefficients" :=
  plain_fit_coeff_rejected (fun _ _ => []) (ConsequentLayer.init false 1 1 1)
    [[1]] [[1]] [[1]] rfl

/-! ## pad_to with a too-small target (claim C8) -/

/-- A 2-MF variable used by the `pad_to` counterexample. -/
def padVar : FuzzifyVariable := ⟨[fun _ => (1 : ℚ), fun _ => 2], 0⟩

/-- Counterexample to claim C8 as stated: `pad_to(1)` on a variable with 2
MFs does not fail or reject anything — it returns normally, stores the
negative padding -1, and the next forward row is simply the unpadded 2-wide
MF row. -/
theorem pad_to_negative_counterexample :
    (padVar.pad_to 1).padding = -1 ∧
      (padVar.pad_to 1).num_mfs = 2 ∧
      (padVar.pad_to 1).fuzzRow 0 = [1, 2] := by
  refine ⟨rfl, rfl, ?_⟩
  norm_num [padVar, FuzzifyVariable.pad_to, FuzzifyVariable.fuzzRow]

/-- Claim C8 (amended): `pad_to(new_size)` never fails; it stores
`padding = new_size - num_mfs` (negative when `new_size < num_mfs`), and
the forward pass appends padding columns only when `padding > 0`, so a
non-positive padding leaves the row at its true MF width. -/
theorem pad_to_no_guard (v : FuzzifyVariable) (n : ℕ) :
    (v.pad_to n).padding = (n : ℤ) - v.num_mfs ∧
      ((v.pad_to n).padding ≤ 0 →
        ∀ xi : ℚ, (v.pad_to n).fuzzRow xi = v.mfdefs.map fun mf => mf xi) := by
  refine ⟨rfl, ?_⟩
  intro hp xi
  unfold FuzzifyVariable.fuzzRow
  rw [if_neg (by omega)]
  rfl

theorem pad_to_no_guard_witness :
    (padVar.pad_to 1).padding = (1 : ℤ) - padVar.num_mfs ∧
      ((padVar.pad_to 1).padding ≤ 0 →
        ∀ xi : ℚ, (padVar.pad_to 1).fuzzRow xi
          = padVar.mfdefs.map fun mf => mf xi) :=
  pad_to_no_guard padVar 1

/-! ## Coefficient setter (claim C9) -/

/-- A plain-mode net used by the setter counterexample. -/
def plainNet : AnfisNet := AnfisNet.init "p" [[fun _ => (1 : ℚ)]] ["y0"] false

/-- Counterexample to claim C9 as stated: on a plain-mode net, setting the
coefficient tensor with a replacement of exactly matching shape does not
succeed — the plain consequent class redefines `coeff` as a getter-only
property, so the assignment fails (Python raises `AttributeError`). -/
theorem anfis_set_coeff_plain_counterexample :
    dims3 (zeros3 1 1 2) = dims3 plainNet.coeff ∧
      plainNet.setCoeff (zeros3 1 1 2)
        = Except.error
          "AttributeError: property coeff of PlainConsequentLayer has no setter" := by
  exact ⟨rfl, rfl⟩

/-- Claim C9 (amended): in hybrid mode the coefficient setter stores a
replacement of matching shape and fails with the shape assertion on a
mismatched shape; in plain mode every assignment fails (getter-only
property), whatever the shape of the replacement. -/
theorem anfis_set_coeff_spec (net : AnfisNet) (new : List (List (List ℚ))) :
    (net.consequent.hybrid = true →
      (dims3 new = dims3 net.coeff →
        ∃ net', net.setCoeff new = Except.ok net' ∧ net'.coeff = new) ∧
      (dims3 new ≠ dims3 net.coeff →
        ∃ msg, net.setCoeff new = Except.error msg)) ∧
    (net.consequent.hybrid = false →
      ∃ msg, net.setCoeff new = Except.error msg) := by
  constructor
  · intro hh
    constructor
    · intro hdim
      refine ⟨{ net with consequent :=
        { net.consequent with coeffData := new } }, ?_, rfl⟩
      unfold AnfisNet.setCoeff ConsequentLayer.setCoeff
      rw [hh, if_pos rfl,
        if_pos (show dims3 new = dims3 net.consequent.coeffData from hdim)]
      simp [Except.map, hh]
    · intro hdim
      refine ⟨"Coeff shape mismatch", ?_⟩
      unfold AnfisNet.setCoeff ConsequentLayer.setCoeff
      rw [hh, if_pos rfl,
        if_neg (show ¬dims3 new = dims3 net.consequent.coeffData from hdim)]
      rfl
  · intro hh
    refine
      ⟨"AttributeError: property coeff of PlainConsequentLayer has no setter",
        ?_⟩
    unfold AnfisNet.setCoeff ConsequentLayer.setCoeff
    rw [hh, if_neg (by simp)]
    rfl

theorem anfis_set_coeff_spec_witness :
    ∃ net', (AnfisNet.init "h" [[fun _ => (1 : ℚ)]] ["y0"] true).setCoeff
        (zeros3 1 1 2) = Except.ok net' ∧ net'.coeff = zeros3 1 1 2 :=
  ((anfis_set_coeff_spec (AnfisNet.init "h" [[fun _ => (1 : ℚ)]] ["y0"] true)
    (zeros3 1 1 2)).1 rfl).1 rfl

/-! ## Hybrid fit_coeff (claim C2) -/

/-- Spec-side description of the weighted design matrix: row `n` holds, at
flat column `r*(num_in+1) + j`, the entry `weights[n,r] * [x[n,:], 1][j]`
with every exact zero replaced by 1e-12.  Written from the words of the
specification, to be compared with what `ConsequentLayer.fit_coeff` hands to the
solver. -/
def designMatrixSpec (weights x : List (List ℚ)) : List (List ℚ) :=
  (weights.zip (addOnes x)).map fun p =>
    p.1.flatMap fun wr => p.2.map fun xq =>
      if wr * xq = 0 then tinyEps else wr * xq

/-- Spec-side layout of the solved coefficients: entry `(r, o, j)` of the
`[num_rules, num_out, num_in+1]` tensor is row `r*(num_in+1)+j`, column `o`
of the solution of the solver (rule blocks in rule-table order, the reshape to
`[R, num_in+1, O]` followed by a transpose of the last two dims). -/
def coeffFromSolution (R J O : ℕ) (sol : List (List ℚ)) :
    List (List (List ℚ)) :=
  (List.range R).map fun r => (List.range O).map fun o =>
    (List.range J).map fun j => (sol.getD (r * J + j) []).getD o 0

/-- The einsum / zero-replacement / flatten chain of
`ConsequentLayer.fit_coeff` builds exactly the design matrix of the spec. -/
theorem designMatrix_eq (weights x : List (List ℚ)) :
    ((((weights.zip (addOnes x)).map fun p =>
        p.1.map fun wr => p.2.map fun xq => wr * xq).map
      fun m => m.map fun row => row.map fun v =>
        if v = 0 then tinyEps else v).map List.flatten)
      = designMatrixSpec weights x := by
  unfold designMatrixSpec
  rw [List.map_map, List.map_map]
  apply List.map_congr_left
  intro p _
  simp only [Function.comp_def, List.map_map, List.flatMap_def]

/-- Antecedent rows always have `num_rules` entries, whatever the input. -/
theorem antecedent_forward_rows (A : AntecedentLayer)
    (x : List (List (List ℚ))) :
    ∀ row ∈ A.forward x, row.length = A.num_rules := by
  intro row hrow
  simp only [AntecedentLayer.forward, List.mem_map] at hrow
  obtain ⟨s, _, rfl⟩ := hrow
  simp [gatherDim1, AntecedentLayer.num_rules]

/-- Normalized weight rows have one entry per rule. -/
theorem anfis_weights_rows (net : AnfisNet) (x : List (List ℚ)) :
    ∀ row ∈ (net.forward x).weights, row.length = net.rules.num_rules := by
  intro row hrow
  simp only [AnfisNet.forward, l1Normalize, List.mem_map] at hrow
  obtain ⟨r0, hr0, rfl⟩ := hrow
  rw [List.length_map]
  exact antecedent_forward_rows _ _ r0 hr0

/-- As many normalized weight rows as input samples. -/
theorem anfis_weights_length (net : AnfisNet) (x : List (List ℚ)) :
    (net.forward x).weights.length = x.length := by
  simp [AnfisNet.forward, l1Normalize, AntecedentLayer.forward,
    FuzzifyLayer.forward]

/-- The head row of the spec design matrix has `R*(I+1)` columns. -/
theorem designMatrix_head_cols (weights x : List (List ℚ)) (R I : ℕ)
    (hx0 : x ≠ []) (hxrect : ∀ row ∈ x, row.length = I)
    (hwlen : weights.length = x.length)
    (hwrect : ∀ row ∈ weights, row.length = R) :
    ((designMatrixSpec weights x).headD []).length = R * (I + 1) := by
  obtain ⟨x0, xt, rfl⟩ := List.exists_cons_of_ne_nil hx0
  obtain ⟨w0, wt, hw⟩ := List.exists_cons_of_ne_nil
    (show weights ≠ [] by
      intro h0
      rw [h0] at hwlen
      simp at hwlen)
  subst hw
  show ((designMatrixSpec (w0 :: wt) ((x0 :: xt))).headD []).length = _
  unfold designMatrixSpec
  rw [show addOnes (x0 :: xt) = (x0 ++ [1]) :: addOnes xt from rfl,
    List.zip_cons_cons, List.map_cons, List.headD_cons]
  dsimp only
  rw [List.length_flatMap]
  have hone : ∀ wr : ℚ, wr ∈ w0 → (List.length ∘ fun wr : ℚ =>
      (x0 ++ [1]).map fun xq => if wr * xq = 0 then tinyEps else wr * xq) wr
        = I + 1 := by
    intro wr _
    simp only [Function.comp_def]
    rw [List.length_map, List.length_append, List.length_singleton,
      hxrect x0 (List.mem_cons_self x0 xt)]
  rw [List.map_congr_left hone, List.map_const', List.sum_replicate,
    smul_eq_mul, hwrect w0 (List.mem_cons_self w0 wt)]

/-- The head of a `(range (J+1)).map f` list. -/
theorem headD_range_map {α : Type} (J : ℕ) (f : ℕ → α) (d : α) :
    (((List.range (J + 1)).map f).headD d) = f 0 := by
  rw [List.range_succ_eq_map, List.map_cons, List.headD_cons]

/-- The `view` into `[R, J, -1]` followed by the transpose of the last two
dims lays the first `R*J` solution rows out as the coefficient tensor of the spec. -/
theorem view_transpose_eq (R J O : ℕ) (sol : List (List ℚ))
    (hJ : 0 < J) (hlen : R * J ≤ sol.length)
    (hrect : ∀ row ∈ sol, row.length = O) :
    (viewAs3 R J (sol.take (R * J))).map transposeT
      = coeffFromSolution R J O sol := by
  obtain ⟨J', rfl⟩ : ∃ J', J = J' + 1 := ⟨J - 1, by omega⟩
  unfold viewAs3 coeffFromSolution
  rw [List.map_map]
  apply List.map_congr_left
  intro r hr
  rw [List.mem_range] at hr
  have hidx : ∀ j, j < J' + 1 → r * (J' + 1) + j < sol.length := by
    intro j hj
    refine lt_of_lt_of_le (lt_of_lt_of_le ?_
      (Nat.mul_le_mul_right (J' + 1) hr)) hlen
    calc r * (J' + 1) + j < r * (J' + 1) + (J' + 1) := by omega
      _ = (r + 1) * (J' + 1) := by ring
  have hgd : ∀ j, j < J' + 1 →
      (sol.take (R * (J' + 1))).getD (r * (J' + 1) + j) []
        = sol.getD (r * (J' + 1) + j) [] := by
    intro j hj
    have hidx2 : r * (J' + 1) + j < R * (J' + 1) := by
      refine lt_of_lt_of_le ?_ (Nat.mul_le_mul_right (J' + 1) hr)
      calc r * (J' + 1) + j < r * (J' + 1) + (J' + 1) := by omega
        _ = (r + 1) * (J' + 1) := by ring
    rw [List.getD_eq_getElem _ _ (by
        rw [List.length_take]
        exact lt_min hidx2 (hidx j hj)),
      List.getElem_take, ← List.getD_eq_getElem _ _ (hidx j hj)]
  simp only [Function.comp_def]
  unfold transposeT
  rw [headD_range_map, hgd 0 (by omega)]
  have hO2 : (sol.getD (r * (J' + 1) + 0) []).length = O := by
    rw [List.getD_eq_getElem _ _ (by simpa using hidx 0 (by omega))]
    exact hrect _ (List.getElem_mem _)
  rw [hO2]
  apply List.map_congr_left
  intro o _
  rw [List.map_map]
  apply List.map_congr_left
  intro j hj
  rw [List.mem_range] at hj
  simp only [Function.comp_def]
  rw [hgd j hj]

/-- The shape triple of the spec coefficient tensor. -/
theorem dims3_coeffFromSolution (R J O : ℕ) (sol : List (List ℚ))
    (hR : 0 < R) (hO : 0 < O) :
    dims3 (coeffFromSolution R J O sol) = (R, O, J) := by
  obtain ⟨R', rfl⟩ : ∃ R', R = R' + 1 := ⟨R - 1, by omega⟩
  obtain ⟨O', rfl⟩ : ∃ O', O = O' + 1 := ⟨O - 1, by omega⟩
  unfold dims3 coeffFromSolution
  rw [headD_range_map, headD_range_map]
  simp

/-- The shape triple of the zero tensor. -/
theorem dims3_zeros3 (R O J : ℕ) (hR : 0 < R) (hO : 0 < O) :
    dims3 (zeros3 R O J) = (R, O, J) := by
  obtain ⟨R', rfl⟩ : ∃ R', R = R' + 1 := ⟨R - 1, by omega⟩
  obtain ⟨O', rfl⟩ : ∃ O', O = O' + 1 := ⟨O - 1, by omega⟩
  unfold dims3 zeros3
  rw [headD_replicate_succ, headD_replicate_succ]
  simp

/-- The closed-form fit of the hybrid consequent layer: for any least-squares
routine `solver`, it hands the solver exactly the weighted design matrix of the spec (zero entries already replaced by 1e-12) together with the raw
targets, slices the first `R*(num_in+1)` solution rows, and stores them as
the `[R, num_out, num_in+1]` tensor in rule-block order. -/
theorem consequent_fit_hybrid
    (solver : List (List ℚ) → List (List ℚ) → List (List ℚ))
    (R O I : ℕ) (x weights y : List (List ℚ))
    (hR : 0 < R) (hO : 0 < O) (hx0 : x ≠ [])
    (hxrect : ∀ row ∈ x, row.length = I)
    (hwlen : weights.length = x.length)
    (hwrect : ∀ row ∈ weights, row.length = R)
    (hsollen : R * (I + 1) ≤ (solver (designMatrixSpec weights x) y).length)
    (hsolrect : ∀ row ∈ solver (designMatrixSpec weights x) y,
      row.length = O) :
    (ConsequentLayer.init true I R O).fit_coeff solver x weights y
      = Except.ok ⟨true, coeffFromSolution R (I + 1) O
          (solver (designMatrixSpec weights x) y)⟩ := by
  have hwne : weights ≠ [] := by
    intro h0
    rw [h0] at hwlen
    exact hx0 (List.length_eq_zero.mp hwlen.symm)
  obtain ⟨x0, xt, hxeq⟩ := List.exists_cons_of_ne_nil hx0
  obtain ⟨w0, wt, hweq⟩ := List.exists_cons_of_ne_nil hwne
  have hRw : (weights.headD []).length = R := by
    rw [hweq]
    exact hwrect w0 (by rw [hweq]; exact List.mem_cons_self w0 wt)
  have hJx : (x.headD []).length + 1 = I + 1 := by
    rw [hxeq]
    rw [show ((x0 :: xt).headD []) = x0 from rfl,
      hxrect x0 (by rw [hxeq]; exact List.mem_cons_self x0 xt)]
  unfold ConsequentLayer.fit_coeff
  rw [if_pos (show (ConsequentLayer.init true I R O).hybrid = true from rfl)]
  dsimp only
  rw [designMatrix_eq, hRw, hJx,
    designMatrix_head_cols weights x R I hx0 hxrect hwlen hwrect,
    view_transpose_eq R (I + 1) O _ (by omega) hsollen hsolrect]
  unfold ConsequentLayer.setCoeff
  rw [if_pos (show (ConsequentLayer.init true I R O).hybrid = true from rfl),
    if_pos (show dims3 (coeffFromSolution R (I + 1) O
        (solver (designMatrixSpec weights x) y))
      = dims3 (ConsequentLayer.init true I R O).coeffData by
        rw [dims3_coeffFromSolution _ _ _ _ hR hO]
        exact (dims3_zeros3 R O (I + 1) hR hO).symm)]
  rfl

/-- Claim C2: in hybrid mode `AnfisNet.fit_coeff(x, y_actual)` runs a
forward pass and hands the closed-form solver the normalized rule weights
of that pass and the raw input `x` (not the fuzzified tensor): the design
matrix is `weighted_x[n,r,:] = weights[n,r] * [x[n,:], 1]` with every exact
zero replaced by 1e-12 before solving (`designMatrixSpec`), and the solved
flat coefficients are reshaped to `[num_rules, num_in+1, num_out]` and
transposed so the stored tensor is `[num_rules, num_out, num_in+1]` with
rule rows in the antecedent rule-table order (`coeffFromSolution`).  The
least-squares routine itself (`torch.gels`) is external library code and is
quantified over as `solver`. -/
theorem anfis_fit_coeff_hybrid_spec
    (solver : List (List ℚ) → List (List ℚ) → List (List ℚ))
    (d : String) (invardefs : List (List (ℚ → ℚ))) (outv : List String)
    (x y : List (List ℚ))
    (hR : 0 < (invardefs.map List.length).prod)
    (hO : 0 < outv.length)
    (hx0 : x ≠ [])
    (hxrect : ∀ row ∈ x, row.length = invardefs.length)
    (hsollen : (invardefs.map List.length).prod * (invardefs.length + 1)
      ≤ (solver (designMatrixSpec
          (((AnfisNet.init d invardefs outv true).forward x).weights) x)
          y).length)
    (hsolrect : ∀ row ∈ solver (designMatrixSpec
        (((AnfisNet.init d invardefs outv true).forward x).weights) x) y,
      row.length = outv.length) :
    AnfisNet.fit_coeff solver (AnfisNet.init d invardefs outv true) x y
      = Except.ok { AnfisNet.init d invardefs outv true with consequent :=
          ⟨true, coeffFromSolution ((invardefs.map List.length).prod)
            (invardefs.length + 1) outv.length
            (solver (designMatrixSpec
              (((AnfisNet.init d invardefs outv true).forward x).weights) x)
              y)⟩ } := by
  have hwlen : ((AnfisNet.init d invardefs outv true).forward x).weights.length
      = x.length := anfis_weights_length _ x
  have hwrect : ∀ row ∈ ((AnfisNet.init d invardefs outv true).forward
      x).weights, row.length = (invardefs.map List.length).prod := by
    intro row hrow
    rw [anfis_weights_rows _ x row hrow, AntecedentLayer.num_rules,
      anfis_mf_indices, ruleTable_length]
  unfold AnfisNet.fit_coeff
  rw [if_pos
    (show (AnfisNet.init d invardefs outv true).hybrid = true from rfl)]
  rw [show (AnfisNet.init d invardefs outv true).consequent
      = ConsequentLayer.init true invardefs.length
          ((invardefs.map List.length).prod) outv.length from rfl,
    consequent_fit_hybrid solver _ _ _ x _ y hR hO hx0 hxrect hwlen hwrect
      hsollen hsolrect]
  rfl

/-- Constant stand-in solver for the fit witness: `R*(num_in+1) = 2` rows,
one output column. -/
def witSolver : List (List ℚ) → List (List ℚ) → List (List ℚ) :=
  fun _ _ => [[5], [7]]

theorem anfis_fit_coeff_hybrid_spec_witness :
    AnfisNet.fit_coeff witSolver
        (AnfisNet.init "f" [[fun _ => (1 : ℚ)]] ["y0"] true) [[2], [3]] [[1], [2]]
      = Except.ok { AnfisNet.init "f" [[fun _ => (1 : ℚ)]] ["y0"] true with
          consequent := ⟨true, coeffFromSolution 1 2 1
            (witSolver (designMatrixSpec
              (((AnfisNet.init "f" [[fun _ => (1 : ℚ)]] ["y0"]
                true).forward [[2], [3]]).weights) [[2], [3]]) [[1], [2]])⟩ } :=
  anfis_fit_coeff_hybrid_spec witSolver "f" [[fun _ => (1 : ℚ)]] ["y0"]
    [[2], [3]] [[1], [2]] (by norm_num) (by norm_num) (by simp)
    (by
      intro row hrow
      simp only [List.mem_cons, List.mem_singleton, List.not_mem_nil,
        or_false] at hrow
      rcases hrow with rfl | rfl <;> rfl)
    (by decide)
    (by decide)

end AnfisJF
